import Mathlib

/-!
Verification of the SimCore fixed-timestep simulation driver
(`src/SimCore.hpp`): the chunked parallel range dispatcher, the phase
execution order inside one step, and the pacing loop (`advance`/`run`),
shallowly embedded in Lean.

Machine integers: `frame_` (`int64_t`) is modelled as `Int`, the
`size_t` counters as `Nat`.  Every run considered keeps `frame_` within
`[0, maxFrames]`, far from the 64-bit boundary, so no wrap-around
arithmetic is needed.  Wall-clock times and `duration<double>` values
are modelled as `ℚ`; the claims proved below never depend on
floating-point rounding, only on which state fields are read/written
and on branch conditions over integers.
-/

namespace SimCore

/-! ## Chunk arithmetic of the range dispatcher

From `SimCore::doOneStep` (SimCore.hpp:236-237) and
`SimCore::processActiveRange` (SimCore.hpp:164-165):

* `chunk = settings_.chunkSize ? settings_.chunkSize : 256;`
* `totalChunks = (count + chunk - 1)/chunk;`
* `begin = idx * chunk; end = min(begin + chunk, count);`
-/

/-- `settings_.chunkSize ? settings_.chunkSize : 256` (SimCore.hpp:236). -/
def effectiveChunkSize (chunkSize : Nat) : Nat :=
  if chunkSize = 0 then 256 else chunkSize

/-- `totalChunks = (count + chunk - 1)/chunk` (SimCore.hpp:237). -/
def totalChunks (count chunk : Nat) : Nat := (count + chunk - 1) / chunk

/-- `begin = idx * chunk` (SimCore.hpp:164, 254). -/
def chunkBegin (idx chunk : Nat) : Nat := idx * chunk

/-- `end = min(begin + chunk, count)` (SimCore.hpp:165, 255). -/
def chunkEnd (idx chunk count : Nat) : Nat := min (idx * chunk + chunk) count

theorem effectiveChunkSize_pos (chunkSize : Nat) : 0 < effectiveChunkSize chunkSize := by
  unfold effectiveChunkSize
  split <;> omega

theorem chunk_idx_eq_div (C N idx i : Nat) (_hC : 0 < C)
    (h1 : chunkBegin idx C ≤ i) (h2 : i < chunkEnd idx C N) : idx = i / C := by
  have h2' : i < idx * C + C := lt_of_lt_of_le h2 (min_le_left _ _)
  have : i / C = idx := Nat.div_eq_of_lt_le h1 (by rw [Nat.succ_mul]; exact h2')
  omega

theorem chunk_mem_iff (C N i : Nat) (hC : 0 < C) :
    i < N ↔ ∃ idx, idx < totalChunks N C ∧ chunkBegin idx C ≤ i ∧ i < chunkEnd idx C N := by
  constructor
  · intro hiN
    refine ⟨i / C, ?_, Nat.div_mul_le_self i C, ?_⟩
    · have hN : 0 < N := lt_of_le_of_lt (Nat.zero_le i) hiN
      have hsub : N + C - 1 = (N - 1) + C := by omega
      have hstep : ((N - 1) + C) / C = (N - 1) / C + 1 := Nat.add_div_right (N - 1) hC
      have hmono : i / C ≤ (N - 1) / C := Nat.div_le_div_right (by omega)
      unfold totalChunks
      rw [hsub, hstep]
      omega
    · have := Nat.lt_div_mul_add (a := i) hC
      unfold chunkEnd
      omega
  · rintro ⟨idx, _, _, hlt⟩
    exact lt_of_lt_of_le hlt (min_le_right _ _)

theorem chunk_disjoint (C N idx₁ idx₂ i : Nat) (hC : 0 < C)
    (h1 : chunkBegin idx₁ C ≤ i) (h2 : i < chunkEnd idx₁ C N)
    (h3 : chunkBegin idx₂ C ≤ i) (h4 : i < chunkEnd idx₂ C N) : idx₁ = idx₂ := by
  rw [chunk_idx_eq_div C N idx₁ i hC h1 h2, chunk_idx_eq_div C N idx₂ i hC h3 h4]

/-! ## The chunk-claiming protocol (`nextChunk_` / `remaining_`)

Transition system for one published `ActiveRange` with `tc` chunks.
Consumers are the worker threads running `processActiveRange`
(SimCore.hpp:160-176) and the driver loop inside `doOneStep`
(SimCore.hpp:248-260).  The loop body of a consumer splits into two
visible actions on the shared state:

* `claim`: `idx = nextChunk_.fetch_add(1)` returned `idx < totalChunks`;
  the consumer is now executing chunk `idx` (it will later decrement
  `remaining_`).  The in-flight chunk is recorded in `inFlight`.
* `finish`: a consumer that had claimed `idx` returns from the task
  callback and performs `remaining_.fetch_sub(1)`; `idx` moves from
  `inFlight` to `done` (completion order).
* `overclaim`: `fetch_add(1)` returned `idx ≥ totalChunks` while
  `remaining_ > 0`.  A worker then breaks out of its loop
  (SimCore.hpp:163), but the loop of the driver does `yield; continue`
  (SimCore.hpp:250-253) and can therefore perform this action again
  and again while any chunk is still in flight.
-/

structure DispatchState where
  nextChunk : Nat
  remaining : Nat
  inFlight : List Nat
  done : List Nat
deriving DecidableEq

/-- State right after `doOneStep` publishes the range:
`nextChunk_.store(0)`, `remaining_.store(totalChunks)` (SimCore.hpp:244-245). -/
def initDispatch (tc : Nat) : DispatchState :=
  { nextChunk := 0, remaining := tc, inFlight := [], done := [] }

/-- One shared-state action of a consumer of the active range. -/
inductive DStep (tc : Nat) : DispatchState → DispatchState → Prop
  | claim (s : DispatchState) (h : s.nextChunk < tc) :
      DStep tc s { nextChunk := s.nextChunk + 1, remaining := s.remaining,
                   inFlight := s.inFlight ++ [s.nextChunk], done := s.done }
  | finish (s : DispatchState) (idx : Nat) (h : idx ∈ s.inFlight) :
      DStep tc s { nextChunk := s.nextChunk, remaining := s.remaining - 1,
                   inFlight := s.inFlight.erase idx, done := s.done ++ [idx] }
  | overclaim (s : DispatchState) (h : tc ≤ s.nextChunk) (hr : 0 < s.remaining) :
      DStep tc s { nextChunk := s.nextChunk + 1, remaining := s.remaining,
                   inFlight := s.inFlight, done := s.done }

/-- States reachable while the range with `tc` chunks is active. -/
inductive DReach (tc : Nat) : DispatchState → Prop
  | init : DReach tc (initDispatch tc)
  | step {s t : DispatchState} : DReach tc s → DStep tc s t → DReach tc t

/-- Protocol invariant: the multiset of claimed chunks (completed plus
in-flight) is exactly an initial segment of the chunk indices, its size
is `min nextChunk tc`, and `remaining` counts the chunks not yet done. -/
def DInv (tc : Nat) (s : DispatchState) : Prop :=
  (s.done ++ s.inFlight).Perm (List.range (s.done.length + s.inFlight.length)) ∧
  s.done.length + s.inFlight.length = min s.nextChunk tc ∧
  s.remaining = tc - s.done.length

theorem dinv_init (tc : Nat) : DInv tc (initDispatch tc) := by
  refine ⟨by simp [initDispatch], by simp [initDispatch], by simp [initDispatch]⟩

theorem dinv_step {tc : Nat} {s t : DispatchState}
    (hinv : DInv tc s) (hstep : DStep tc s t) : DInv tc t := by
  obtain ⟨hperm, hcount, hrem⟩ := hinv
  cases hstep with
  | claim h =>
      have hnc : s.done.length + s.inFlight.length = s.nextChunk := by
        omega
      refine ⟨?_, ?_, ?_⟩
      · dsimp only
        simp only [List.length_append, List.length_cons, List.length_nil]
        rw [← List.append_assoc]
        have hperm2 : (s.done ++ s.inFlight).Perm (List.range s.nextChunk) := by
          rw [hnc] at hperm
          exact hperm
        have hl : s.done.length + (s.inFlight.length + 1) = s.nextChunk + 1 := by omega
        rw [hl, List.range_succ]
        exact hperm2.append_right _
      · dsimp only
        simp only [List.length_append, List.length_cons, List.length_nil]
        omega
      · dsimp only
        exact hrem
  | finish idx h =>
      have hmem : (s.inFlight.length) ≠ 0 := by
        intro h0
        rw [List.length_eq_zero] at h0
        rw [h0] at h
        simp at h
      have herase : s.inFlight.Perm (idx :: s.inFlight.erase idx) :=
        List.perm_cons_erase h
      have hlen : (s.inFlight.erase idx).length = s.inFlight.length - 1 :=
        List.length_erase_of_mem h
      refine ⟨?_, ?_, ?_⟩
      · dsimp only
        have hstepperm : ((s.done ++ [idx]) ++ s.inFlight.erase idx).Perm
            (s.done ++ s.inFlight) := by
          rw [List.append_assoc]
          exact (herase.symm.append_left s.done)
        refine hstepperm.trans (hperm.trans ?_)
        have hsame : s.done.length + s.inFlight.length
            = (s.done ++ [idx]).length + (s.inFlight.erase idx).length := by
          simp only [List.length_append, List.length_cons, List.length_nil, hlen]
          omega
        rw [hsame]
      · dsimp only
        simp only [List.length_append, List.length_cons, List.length_nil, hlen]
        omega
      · dsimp only
        have hle : s.done.length + s.inFlight.length ≤ tc := by
          have := min_le_right s.nextChunk tc
          omega
        simp only [List.length_append, List.length_cons, List.length_nil]
        omega
  | overclaim h hr =>
      refine ⟨hperm, ?_, hrem⟩
      dsimp only
      have h1 : min s.nextChunk tc = tc := min_eq_right h
      have h2 : min (s.nextChunk + 1) tc = tc := min_eq_right (by omega)
      omega

theorem dinv_reach {tc : Nat} {s : DispatchState} (h : DReach tc s) : DInv tc s := by
  induction h with
  | init => exact dinv_init tc
  | step _ hstep ih => exact dinv_step ih hstep

/-- On completion (`remaining_ == 0`, the condition the driver waits for
at SimCore.hpp:248) every chunk index in `[0, totalChunks)` has been
claimed and executed exactly once. -/
theorem dispatch_complete_perm {tc : Nat} {s : DispatchState}
    (h : DReach tc s) (hdone : s.remaining = 0) :
    s.done.Perm (List.range tc) := by
  obtain ⟨hperm, hcount, hrem⟩ := dinv_reach h
  have hle : s.done.length + s.inFlight.length ≤ tc := by
    have := min_le_right s.nextChunk tc
    omega
  have hdl : s.done.length = tc := by omega
  have hfl : s.inFlight.length = 0 := by omega
  rw [List.length_eq_zero] at hfl
  rw [hfl] at hperm
  simp only [List.append_nil, List.length_nil, Nat.add_zero, hdl] at hperm
  exact hperm

/-! ## Phase structure of one step (`SimCore::doOneStep`)

`doOneStep` (SimCore.hpp:219-280) iterates the registered phases in
order and, for each enabled phase: runs the serial subsystems in
insertion order (lines 227-228); then, if `threadCount_ > 1` and the
phase has range tasks and `elementCount > 0`, dispatches each range
task in insertion order through the chunk dispatcher, waiting for
`remaining_ == 0` before moving on (lines 230-261); otherwise invokes
each range task once with `(0, elementCount)` (lines 262-267); finally
runs the reductions in insertion order (lines 269-272).

We model the callbacks of a phase by their counts and record each
callback invocation as an `Event`.  The order in which the chunks of
one dispatched range task are executed is scheduling-dependent, so the
model takes it as a parameter (`order`); theorems quantify over it.
-/

structure PhaseModel where
  serials : Nat
  rangeTasks : Nat
  reductions : Nat
  elementCount : Nat
  enabled : Bool
deriving DecidableEq

/-- The `(begin, end)` intervals with which one parallel range task of a
phase is invoked during one step, given the chunk execution order
`order`.  Mirrors the branch at SimCore.hpp:230-267: the chunked
dispatcher runs only when `threadCount_ > 1`, the phase has range
tasks, and `elementCount > 0`; otherwise the task is invoked once with
`(0, elementCount)`. -/
def phaseTaskIntervals (threadCount chunkSize : Nat) (ph : PhaseModel)
    (order : List Nat) : List (Nat × Nat) :=
  if 1 < threadCount ∧ 0 < ph.rangeTasks ∧ 0 < ph.elementCount then
    order.map (fun idx => (chunkBegin idx (effectiveChunkSize chunkSize),
                           chunkEnd idx (effectiveChunkSize chunkSize) ph.elementCount))
  else
    [(0, ph.elementCount)]

/-- One callback invocation observed during a step.  The first `Nat` is
always the phase index. -/
inductive Event where
  | serialCall : Nat → Nat → Event
  | chunkCall : Nat → Nat → Nat → Nat → Event
  | reductionCall : Nat → Nat → Event
deriving DecidableEq

def eventPhase : Event → Nat
  | .serialCall p _ => p
  | .chunkCall p _ _ _ => p
  | .reductionCall p _ => p

/-- Invocation order of `doOneStep` within one phase: serial subsystems
in insertion order, then all chunks of range task `t` before any chunk
of range task `t + 1`, then reductions in insertion order. -/
def inPhaseBefore : Event → Event → Prop
  | .serialCall _ i, .serialCall _ j => i < j
  | .serialCall _ _, .chunkCall _ _ _ _ => True
  | .serialCall _ _, .reductionCall _ _ => True
  | .chunkCall _ t _ _, .chunkCall _ u _ _ => t ≤ u
  | .chunkCall _ _ _ _, .reductionCall _ _ => True
  | .reductionCall _ i, .reductionCall _ j => i < j
  | _, _ => False

/-- Events within one step: earlier phases first; inside a phase, the
`inPhaseBefore` order. -/
def stepBefore (e f : Event) : Prop :=
  eventPhase e < eventPhase f ∨ (eventPhase e = eventPhase f ∧ inPhaseBefore e f)

/-- The invocation sequence `doOneStep` produces for phase number `p`
(SimCore.hpp:221-276).  `orders t` is the chunk execution order of
range task `t`. -/
def phaseEvents (threadCount chunkSize p : Nat) (ph : PhaseModel)
    (orders : Nat → List Nat) : List Event :=
  if ph.enabled = false then [] else
    ((List.range ph.serials).map (fun i => Event.serialCall p i))
    ++ ((List.range ph.rangeTasks).map (fun t =>
          (phaseTaskIntervals threadCount chunkSize ph (orders t)).map
            (fun be => Event.chunkCall p t be.1 be.2))).flatten
    ++ ((List.range ph.reductions).map (fun r => Event.reductionCall p r))

/-- The invocation sequence of a whole step: phases in registration
order. -/
def stepEvents (threadCount chunkSize : Nat) (phases : List PhaseModel)
    (orders : Nat → Nat → List Nat) : List Event :=
  ((List.range phases.length).map (fun p =>
    phaseEvents threadCount chunkSize p
      (phases.getD p ⟨0, 0, 0, 0, false⟩) (orders p))).flatten

/-! ## Element-wise semantics of a range task

A range task that writes each element of a per-element array as a
function of the index of that element and its prior value (as in
`tests/test_simcore_basic.cpp`, `runHash`) is modelled by
`f : Nat → α → α`.  Executing the task on `[b, e)` updates exactly
the elements with index in `[b, e)`. -/

def applyRange {α : Type} (f : Nat → α → α) (a : Nat → α) (b e : Nat) : Nat → α :=
  fun i => if b ≤ i ∧ i < e then f i (a i) else a i

/-- Executing a list of `(begin, end)` invocations in order. -/
def execIntervals {α : Type} (f : Nat → α → α) (a : Nat → α)
    (l : List (Nat × Nat)) : Nat → α :=
  l.foldl (fun acc be => applyRange f acc be.1 be.2) a

/-! ## Settings, run-time state, and the pacing loop

`SimCore::Settings` (SimCore.hpp:21-33) and the run-time state fields
(SimCore.hpp:304-315, 326-327) used by `run`/`advance`/`doOneStep`/
`logDrift`/`recalcTiming`.  `double` and `duration<double>` values are
modelled as `ℚ`; `steady_clock::time_point` as `ℚ` (seconds).  The
wall-clock readings, which are inputs of the program, are passed as
explicit arguments or oracles. -/

structure Settings where
  hz : ℚ
  maxFrames : Int
  adaptive : Bool
  maxCatchUp : Int
  threads : Nat
  mainHelps : Bool
  chunkSize : Nat
  driftLogInterval : Int
  spinMicros : Int
  logPhases : Bool
  logRangeTasks : Bool
deriving DecidableEq

structure SimState where
  frame : Int
  terminate : Bool
  subSteps : Int
  dt : ℚ
  outerDt : ℚ
  nextFrameTarget : ℚ
  startReal : ℚ
  lastDriftMs : ℚ
deriving DecidableEq

/-- `SimCore::applySettings` (SimCore.hpp:56-71): repairs `hz ≤ 0` to
`1.0`, `threads == 0` to `1`, negative `maxCatchUp` to `0`.  No other
field is validated or changed; in particular `chunkSize` passes
through untouched and no configuration is ever rejected. -/
def applySettings (s : Settings) : Settings :=
  { s with
    hz := if s.hz ≤ 0 then 1 else s.hz
    threads := if s.threads = 0 then 1 else s.threads
    maxCatchUp := if s.maxCatchUp < 0 then 0 else s.maxCatchUp }

/-- `SimCore::recalcTiming` (SimCore.hpp:294-302).  `now` is the value
`Clock::now()` returns at line 301. -/
def recalcTiming (c : Settings) (now : ℚ) (s : SimState) : SimState :=
  let subSteps : Int := if c.hz > 1000 then ⌈c.hz / 1000⌉ else 1
  let dt : ℚ := 1 / c.hz
  { s with
    subSteps := subSteps
    dt := dt
    outerDt := dt * subSteps
    startReal := now }

/-- `SimCore::logDrift` (SimCore.hpp:282-292).  `now` is the
`Clock::now()` reading at line 285.  Writes `lastDriftMs_` only when
`driftLogInterval > 0` and the current frame is a multiple of it. -/
def logDrift (c : Settings) (now : ℚ) (s : SimState) : SimState :=
  if c.driftLogInterval ≤ 0 then s
  else if s.frame % c.driftLogInterval ≠ 0 then s
  else { s with lastDriftMs := ((s.frame : ℚ) * s.dt - (now - s.startReal)) * 1000 }

/-- The effect of `SimCore::doOneStep` (SimCore.hpp:219-280) on the
run-time state: the phase callbacks run (their effect on user data is
modelled separately), `frame_` is incremented, and `terminate_` becomes
true if some callback of this step called `requestExit()`
(SimCore.hpp:102).  `exitAt f` tells whether the callbacks of the step
executed at frame `f` call `requestExit`. -/
def doStep (exitAt : Int → Bool) (s : SimState) : SimState :=
  { s with frame := s.frame + 1, terminate := s.terminate || exitAt s.frame }

/-- The adaptive catch-up burst, `for (int i=0;i<extra;i++) { if
(maxFrames >= 0 && frame_ >= maxFrames) break; doOneStep(); }`
(SimCore.hpp:207-210).  Note: the loop checks the frame budget but not
`terminate_`. -/
def catchUp (c : Settings) (exitAt : Int → Bool) : Nat → SimState → SimState
  | 0, s => s
  | n + 1, s =>
      if 0 ≤ c.maxFrames ∧ c.maxFrames ≤ s.frame then s
      else catchUp c exitAt n (doStep exitAt s)

/-- `SimCore::advance` (SimCore.hpp:179-217).  The sleep/spin phase
(lines 189-199) only consumes wall-clock time and is dropped.  `k` is
the index of this outer loop iteration; `nowOracle k` is the
`Clock::now()` reading `logDrift` sees in iteration `k`, and
`extraOracle k` is the value `int(behind/dt)` computed at line 205 in
iteration `k` (non-positive when the loop is not behind).
`advanceBody` is the part after the two early-return checks: the
ordinary step, the deadline bump `nextFrameTarget_ += dt`, drift
logging, and (when adaptive) the clamped catch-up burst. -/
def advanceBody (c : Settings) (exitAt : Int → Bool) (extraOracle : Nat → Int)
    (nowOracle : Nat → ℚ) (k : Nat) (s : SimState) : SimState :=
  let s1 := doStep exitAt s
  let s2 := { s1 with nextFrameTarget := s1.nextFrameTarget + s1.dt }
  if c.adaptive then
    let s3 := logDrift c (nowOracle k) s2
    let extra0 := extraOracle k
    let extra := if extra0 > c.maxCatchUp then c.maxCatchUp else extra0
    catchUp c exitAt extra.toNat s3
  else
    logDrift c (nowOracle k) s2

/-- `SimCore::advance` (SimCore.hpp:179-217): early return on
`terminate_` or an exhausted frame budget, otherwise run
`advanceBody`; the returned boolean is
`!(maxFrames >= 0 && frame_ >= maxFrames)` (line 216). -/
def advance (c : Settings) (exitAt : Int → Bool) (extraOracle : Nat → Int)
    (nowOracle : Nat → ℚ) (k : Nat) (s : SimState) : SimState × Bool :=
  if s.terminate then (s, false)
  else if 0 ≤ c.maxFrames ∧ c.maxFrames ≤ s.frame then (s, false)
  else
    let s3 := advanceBody c exitAt extraOracle nowOracle k s
    if 0 ≤ c.maxFrames ∧ c.maxFrames ≤ s3.frame then (s3, false) else (s3, true)

/-- The loop `while (advance()) {}` of `SimCore::run` (SimCore.hpp:112),
with explicit fuel (the C++ loop has no a-priori bound; the theorems
below show the fuel they supply is enough). -/
def runLoop (c : Settings) (exitAt : Int → Bool) (extraOracle : Nat → Int)
    (nowOracle : Nat → ℚ) : Nat → Nat → SimState → SimState
  | 0, _, s => s
  | fuel + 1, k, s =>
      match advance c exitAt extraOracle nowOracle k s with
      | (s1, true) => runLoop c exitAt extraOracle nowOracle fuel (k + 1) s1
      | (s1, false) => s1

/-- `SimCore::run` (SimCore.hpp:107-114): records
`startReal_ = Clock::now()` (`now0`), resets the accumulator (not
modelled: never read), sets `nextFrameTarget_ = startReal_`, then loops
on `advance`. -/
def run (c : Settings) (exitAt : Int → Bool) (extraOracle : Nat → Int)
    (nowOracle : Nat → ℚ) (now0 : ℚ) (fuel : Nat) (s : SimState) : SimState :=
  runLoop c exitAt extraOracle nowOracle fuel 0
    { s with startReal := now0, nextFrameTarget := now0 }

/-! ## Pacing-loop lemmas -/

theorem doStep_frame (exitAt : Int → Bool) (s : SimState) :
    (doStep exitAt s).frame = s.frame + 1 := rfl

theorem doStep_noexit (exitAt : Int → Bool) (s : SimState)
    (hex : ∀ f, exitAt f = false) (ht : s.terminate = false) :
    (doStep exitAt s).terminate = false := by
  simp [doStep, ht, hex]

theorem catchUp_frame_le (c : Settings) (exitAt : Int → Bool)
    (hmf : 0 ≤ c.maxFrames) :
    ∀ (n : Nat) (s : SimState), s.frame ≤ c.maxFrames →
      (catchUp c exitAt n s).frame ≤ c.maxFrames := by
  intro n
  induction n with
  | zero => intro s h; exact h
  | succ m ih =>
      intro s h
      unfold catchUp
      split
      · exact h
      · rename_i hcond
        apply ih
        rw [doStep_frame]
        omega

theorem catchUp_frame_ge (c : Settings) (exitAt : Int → Bool) :
    ∀ (n : Nat) (s : SimState), s.frame ≤ (catchUp c exitAt n s).frame := by
  intro n
  induction n with
  | zero => intro s; exact le_refl _
  | succ m ih =>
      intro s
      unfold catchUp
      split
      · exact le_refl _
      · have := ih (doStep exitAt s)
        rw [doStep_frame] at this
        omega

theorem catchUp_noexit (c : Settings) (exitAt : Int → Bool)
    (hex : ∀ f, exitAt f = false) :
    ∀ (n : Nat) (s : SimState), s.terminate = false →
      (catchUp c exitAt n s).terminate = false := by
  intro n
  induction n with
  | zero => intro s h; exact h
  | succ m ih =>
      intro s h
      unfold catchUp
      split
      · exact h
      · exact ih _ (doStep_noexit exitAt s hex h)

theorem catchUp_lastDrift (c : Settings) (exitAt : Int → Bool) :
    ∀ (n : Nat) (s : SimState),
      (catchUp c exitAt n s).lastDriftMs = s.lastDriftMs := by
  intro n
  induction n with
  | zero => intro s; rfl
  | succ m ih =>
      intro s
      unfold catchUp
      split
      · rfl
      · rw [ih]; rfl

theorem logDrift_gate (c : Settings) (now : ℚ) (s : SimState)
    (h : c.driftLogInterval ≤ 0 ∨ s.frame % c.driftLogInterval ≠ 0) :
    logDrift c now s = s := by
  unfold logDrift
  rcases h with h | h
  · rw [if_pos h]
  · by_cases hd : c.driftLogInterval ≤ 0
    · rw [if_pos hd]
    · rw [if_neg hd, if_pos h]

theorem advanceBody_lastDrift (c : Settings) (exitAt : Int → Bool)
    (extraOracle : Nat → Int) (nowOracle : Nat → ℚ) (k : Nat) (s : SimState)
    (h0 : c.driftLogInterval = 0) :
    (advanceBody c exitAt extraOracle nowOracle k s).lastDriftMs = s.lastDriftMs := by
  have hgate : ∀ t : SimState, logDrift c (nowOracle k) t = t := fun t =>
    logDrift_gate c (nowOracle k) t (Or.inl (by omega))
  unfold advanceBody
  split <;> simp [hgate, catchUp_lastDrift, doStep]

theorem advance_lastDrift (c : Settings) (exitAt : Int → Bool)
    (extraOracle : Nat → Int) (nowOracle : Nat → ℚ) (k : Nat) (s : SimState)
    (h0 : c.driftLogInterval = 0) :
    ((advance c exitAt extraOracle nowOracle k s).1).lastDriftMs = s.lastDriftMs := by
  by_cases h1 : s.terminate = true
  · simp [advance, h1]
  · by_cases h2 : 0 ≤ c.maxFrames ∧ c.maxFrames ≤ s.frame
    · simp [advance, h1, h2]
    · by_cases h3 : 0 ≤ c.maxFrames ∧
          c.maxFrames ≤ (advanceBody c exitAt extraOracle nowOracle k s).frame
      · have h2' : ¬ c.maxFrames ≤ s.frame := fun hh => h2 ⟨h3.1, hh⟩
        simp [advance, h1, h2, h2', h3,
          advanceBody_lastDrift c exitAt extraOracle nowOracle k s h0]
      · simp [advance, h1, h2, h3,
          advanceBody_lastDrift c exitAt extraOracle nowOracle k s h0]

theorem runLoop_lastDrift (c : Settings) (exitAt : Int → Bool)
    (extraOracle : Nat → Int) (nowOracle : Nat → ℚ)
    (h0 : c.driftLogInterval = 0) :
    ∀ (fuel k : Nat) (s : SimState),
      (runLoop c exitAt extraOracle nowOracle fuel k s).lastDriftMs = s.lastDriftMs := by
  intro fuel
  induction fuel with
  | zero => intro k s; rfl
  | succ m ih =>
      intro k s
      unfold runLoop
      have hadv := advance_lastDrift c exitAt extraOracle nowOracle k s h0
      rcases hsplit : advance c exitAt extraOracle nowOracle k s with ⟨s1, b⟩
      rw [hsplit] at hadv
      cases b
      · simpa using hadv
      · simp only []
        rw [ih]
        simpa using hadv

theorem logDrift_frame (c : Settings) (now : ℚ) (s : SimState) :
    (logDrift c now s).frame = s.frame := by
  unfold logDrift
  split
  · rfl
  · split <;> rfl

theorem logDrift_terminate (c : Settings) (now : ℚ) (s : SimState) :
    (logDrift c now s).terminate = s.terminate := by
  unfold logDrift
  split
  · rfl
  · split <;> rfl

theorem advanceBody_frame_le (c : Settings) (exitAt : Int → Bool)
    (extraOracle : Nat → Int) (nowOracle : Nat → ℚ) (k : Nat) (s : SimState)
    (hmf : 0 ≤ c.maxFrames) (hlt : s.frame < c.maxFrames) :
    (advanceBody c exitAt extraOracle nowOracle k s).frame ≤ c.maxFrames := by
  unfold advanceBody
  split
  · apply catchUp_frame_le c exitAt hmf
    rw [logDrift_frame]
    show (doStep exitAt s).frame ≤ c.maxFrames
    rw [doStep_frame]
    omega
  · rw [logDrift_frame]
    show (doStep exitAt s).frame ≤ c.maxFrames
    rw [doStep_frame]
    omega

theorem advanceBody_frame_gt (c : Settings) (exitAt : Int → Bool)
    (extraOracle : Nat → Int) (nowOracle : Nat → ℚ) (k : Nat) (s : SimState) :
    s.frame < (advanceBody c exitAt extraOracle nowOracle k s).frame := by
  unfold advanceBody
  split
  · have h := catchUp_frame_ge c exitAt
      (if extraOracle k > c.maxCatchUp then c.maxCatchUp else extraOracle k).toNat
      (logDrift c (nowOracle k)
        { frame := (doStep exitAt s).frame, terminate := (doStep exitAt s).terminate,
          subSteps := (doStep exitAt s).subSteps, dt := (doStep exitAt s).dt,
          outerDt := (doStep exitAt s).outerDt,
          nextFrameTarget := (doStep exitAt s).nextFrameTarget + (doStep exitAt s).dt,
          startReal := (doStep exitAt s).startReal,
          lastDriftMs := (doStep exitAt s).lastDriftMs })
    rw [logDrift_frame] at h
    have hf : (doStep exitAt s).frame = s.frame + 1 := doStep_frame exitAt s
    refine lt_of_lt_of_le ?_ h
    simp only []
    omega
  · rw [logDrift_frame]
    show s.frame < (doStep exitAt s).frame
    rw [doStep_frame]
    omega

theorem advanceBody_noexit (c : Settings) (exitAt : Int → Bool)
    (extraOracle : Nat → Int) (nowOracle : Nat → ℚ) (k : Nat) (s : SimState)
    (hex : ∀ f, exitAt f = false) (ht : s.terminate = false) :
    (advanceBody c exitAt extraOracle nowOracle k s).terminate = false := by
  unfold advanceBody
  split
  · apply catchUp_noexit c exitAt hex
    rw [logDrift_terminate]
    show (doStep exitAt s).terminate = false
    exact doStep_noexit exitAt s hex ht
  · rw [logDrift_terminate]
    show (doStep exitAt s).terminate = false
    exact doStep_noexit exitAt s hex ht

theorem runLoop_frame_eq (c : Settings) (exitAt : Int → Bool)
    (extraOracle : Nat → Int) (nowOracle : Nat → ℚ)
    (hmf : 0 ≤ c.maxFrames) (hex : ∀ f, exitAt f = false) :
    ∀ (fuel k : Nat) (s : SimState), s.terminate = false →
      s.frame ≤ c.maxFrames → (c.maxFrames - s.frame).toNat < fuel →
      (runLoop c exitAt extraOracle nowOracle fuel k s).frame = c.maxFrames := by
  intro fuel
  induction fuel with
  | zero => intro k s _ _ hcontra; omega
  | succ m ih =>
      intro k s hterm hle hfuel
      unfold runLoop
      by_cases hstop : c.maxFrames ≤ s.frame
      · have heq : s.frame = c.maxFrames := by omega
        have : advance c exitAt extraOracle nowOracle k s = (s, false) := by
          unfold advance
          rw [hterm]
          simp only [Bool.false_eq_true, if_false]
          rw [if_pos ⟨hmf, hstop⟩]
        rw [this]
        exact heq
      · have hlt : s.frame < c.maxFrames := by omega
        have hbody_le := advanceBody_frame_le c exitAt extraOracle nowOracle k s hmf hlt
        have hbody_gt := advanceBody_frame_gt c exitAt extraOracle nowOracle k s
        have hbody_nx := advanceBody_noexit c exitAt extraOracle nowOracle k s hex hterm
        have hadv : advance c exitAt extraOracle nowOracle k s =
            (if 0 ≤ c.maxFrames ∧
                c.maxFrames ≤ (advanceBody c exitAt extraOracle nowOracle k s).frame
             then (advanceBody c exitAt extraOracle nowOracle k s, false)
             else (advanceBody c exitAt extraOracle nowOracle k s, true)) := by
          unfold advance
          rw [hterm]
          simp only [Bool.false_eq_true, if_false]
          rw [if_neg (by omega : ¬(0 ≤ c.maxFrames ∧ c.maxFrames ≤ s.frame))]
        rw [hadv]
        by_cases hdone : 0 ≤ c.maxFrames ∧
            c.maxFrames ≤ (advanceBody c exitAt extraOracle nowOracle k s).frame
        · rw [if_pos hdone]
          show (advanceBody c exitAt extraOracle nowOracle k s).frame = c.maxFrames
          omega
        · rw [if_neg hdone]
          show (runLoop c exitAt extraOracle nowOracle m (k + 1)
            (advanceBody c exitAt extraOracle nowOracle k s)).frame = c.maxFrames
          apply ih (k + 1) _ hbody_nx hbody_le
          omega

theorem applyRange_covered {α : Type} (f : Nat → α → α) (a : Nat → α)
    (b e i : Nat) (h : b ≤ i ∧ i < e) : applyRange f a b e i = f i (a i) := by
  unfold applyRange
  rw [if_pos h]

theorem applyRange_not_covered {α : Type} (f : Nat → α → α) (a : Nat → α)
    (b e i : Nat) (h : ¬(b ≤ i ∧ i < e)) : applyRange f a b e i = a i := by
  unfold applyRange
  rw [if_neg h]

/-- Executing a list of pairwise-disjoint chunks in any duplicate-free
order touches element `i` exactly once if some listed chunk covers it,
and not at all otherwise. -/
theorem execIntervals_chunks {α : Type} (f : Nat → α → α) (C N : Nat) (hC : 0 < C) :
    ∀ (order : List Nat) (a : Nat → α), order.Nodup → ∀ i,
      execIntervals f a (order.map (fun idx => (chunkBegin idx C, chunkEnd idx C N))) i
        = if ∃ idx ∈ order, chunkBegin idx C ≤ i ∧ i < chunkEnd idx C N
          then f i (a i) else a i := by
  intro order
  induction order with
  | nil =>
      intro a _ i
      simp [execIntervals]
  | cons idx rest ih =>
      intro a hnd i
      have hnd' : rest.Nodup := (List.nodup_cons.mp hnd).2
      have hnotmem : idx ∉ rest := (List.nodup_cons.mp hnd).1
      have hstep : execIntervals f a
          ((idx :: rest).map (fun j => (chunkBegin j C, chunkEnd j C N))) i
          = execIntervals f (applyRange f a (chunkBegin idx C) (chunkEnd idx C N))
              (rest.map (fun j => (chunkBegin j C, chunkEnd j C N))) i := rfl
      rw [hstep, ih _ hnd' i]
      by_cases hcov : chunkBegin idx C ≤ i ∧ i < chunkEnd idx C N
      · have hnone : ¬ ∃ j ∈ rest, chunkBegin j C ≤ i ∧ i < chunkEnd j C N := by
          rintro ⟨j, hjmem, hj1, hj2⟩
          have : idx = j := chunk_disjoint C N idx j i hC hcov.1 hcov.2 hj1 hj2
          rw [this] at hnotmem
          exact hnotmem hjmem
        rw [if_neg hnone, if_pos ?hex]
        case hex => exact ⟨idx, List.mem_cons_self idx rest, hcov⟩
        exact applyRange_covered f a _ _ i hcov
      · have hsame : applyRange f a (chunkBegin idx C) (chunkEnd idx C N) i = a i :=
          applyRange_not_covered f a _ _ i hcov
        by_cases hrest : ∃ j ∈ rest, chunkBegin j C ≤ i ∧ i < chunkEnd j C N
        · rw [if_pos hrest, if_pos ?hex2, hsame]
          case hex2 =>
            obtain ⟨j, hjmem, hj⟩ := hrest
            exact ⟨j, List.mem_cons_of_mem idx hjmem, hj⟩
        · rw [if_neg hrest, if_neg ?hnex, hsame]
          case hnex =>
            rintro ⟨j, hjmem, hj⟩
            rcases List.mem_cons.mp hjmem with hj' | hj'
            · exact hcov (hj' ▸ hj)
            · exact hrest ⟨j, hj', hj⟩

/-- With a chunk order that is a permutation of `[0, totalChunks)`, the
chunked execution equals one pass over `[0, N)`. -/
theorem execIntervals_perm_eq_serial {α : Type} (f : Nat → α → α) (C N : Nat)
    (hC : 0 < C) (order : List Nat)
    (hperm : order.Perm (List.range (totalChunks N C))) (a : Nat → α) (i : Nat) :
    execIntervals f a (order.map (fun idx => (chunkBegin idx C, chunkEnd idx C N))) i
      = applyRange f a 0 N i := by
  have hnd : order.Nodup := hperm.nodup_iff.mpr (List.nodup_range _)
  rw [execIntervals_chunks f C N hC order a hnd i]
  have hmemiff : (∃ idx ∈ order, chunkBegin idx C ≤ i ∧ i < chunkEnd idx C N) ↔ i < N := by
    constructor
    · rintro ⟨idx, hmem, hcov⟩
      exact (chunk_mem_iff C N i hC).mpr
        ⟨idx, by
          have := hperm.mem_iff.mp hmem
          rw [List.mem_range] at this
          exact this, hcov⟩
    · intro hiN
      obtain ⟨idx, hidx, hcov⟩ := (chunk_mem_iff C N i hC).mp hiN
      exact ⟨idx, hperm.mem_iff.mpr (List.mem_range.mpr hidx), hcov⟩
  unfold applyRange
  by_cases hiN : i < N
  · rw [if_pos (hmemiff.mpr hiN), if_pos ⟨Nat.zero_le i, hiN⟩]
  · rw [if_neg (fun hh => hiN (hmemiff.mp hh)), if_neg (fun hh => hiN hh.2)]

/-! ## Ordering of callback invocations inside a step -/

theorem pairwise_of_total {α : Type} (R : α → α → Prop) (h : ∀ a b, R a b) :
    ∀ l : List α, l.Pairwise R := by
  intro l
  induction l with
  | nil => exact List.Pairwise.nil
  | cons x xs ih => exact List.Pairwise.cons (fun y _ => h x y) ih

theorem phaseEvents_phase (threadCount chunkSize p : Nat) (ph : PhaseModel)
    (orders : Nat → List Nat) :
    ∀ e ∈ phaseEvents threadCount chunkSize p ph orders, eventPhase e = p := by
  intro e he
  unfold phaseEvents at he
  split at he
  · simp at he
  · simp only [List.mem_append, List.mem_map, List.mem_flatten] at he
    rcases he with (he | he) | he
    · obtain ⟨i, _, rfl⟩ := he
      rfl
    · obtain ⟨l, hl, hel⟩ := he
      obtain ⟨t, _, rfl⟩ := hl
      obtain ⟨be, _, rfl⟩ := List.mem_map.mp hel
      rfl
    · obtain ⟨r, _, rfl⟩ := he
      rfl

theorem phaseEvents_pairwise (threadCount chunkSize p : Nat) (ph : PhaseModel)
    (orders : Nat → List Nat) :
    (phaseEvents threadCount chunkSize p ph orders).Pairwise stepBefore := by
  unfold phaseEvents
  split
  · exact List.Pairwise.nil
  · rw [List.pairwise_append]
    refine ⟨?_, ?_, ?_⟩
    · rw [List.pairwise_append]
      refine ⟨?_, ?_, ?_⟩
      · rw [List.pairwise_map]
        exact (List.pairwise_lt_range _).imp
          (fun h => Or.inr ⟨rfl, h⟩)
      · rw [List.pairwise_flatten]
        constructor
        · intro l hl
          obtain ⟨t, _, rfl⟩ := List.mem_map.mp hl
          rw [List.pairwise_map]
          exact pairwise_of_total _ (fun a b => Or.inr ⟨rfl, le_refl t⟩) _
        · rw [List.pairwise_map]
          refine (List.pairwise_lt_range _).imp ?_
          intro t u htu x hx y hy
          obtain ⟨bx, _, rfl⟩ := List.mem_map.mp hx
          obtain ⟨by_, _, rfl⟩ := List.mem_map.mp hy
          exact Or.inr ⟨rfl, le_of_lt htu⟩
      · intro x hx y hy
        obtain ⟨i, _, rfl⟩ := List.mem_map.mp hx
        obtain ⟨l, hl, hyl⟩ := List.mem_flatten.mp hy
        obtain ⟨t, _, rfl⟩ := List.mem_map.mp hl
        obtain ⟨by_, _, rfl⟩ := List.mem_map.mp hyl
        exact Or.inr ⟨rfl, trivial⟩
    · rw [List.pairwise_map]
      exact (List.pairwise_lt_range _).imp
        (fun h => Or.inr ⟨rfl, h⟩)
    · intro x hx y hy
      obtain ⟨r, _, rfl⟩ := List.mem_map.mp hy
      rcases List.mem_append.mp hx with hx' | hx'
      · obtain ⟨i, _, rfl⟩ := List.mem_map.mp hx'
        exact Or.inr ⟨rfl, trivial⟩
      · obtain ⟨l, hl, hxl⟩ := List.mem_flatten.mp hx'
        obtain ⟨t, _, rfl⟩ := List.mem_map.mp hl
        obtain ⟨bx, _, rfl⟩ := List.mem_map.mp hxl
        exact Or.inr ⟨rfl, trivial⟩

theorem stepEvents_pairwise (threadCount chunkSize : Nat) (phases : List PhaseModel)
    (orders : Nat → Nat → List Nat) :
    (stepEvents threadCount chunkSize phases orders).Pairwise stepBefore := by
  unfold stepEvents
  rw [List.pairwise_flatten]
  constructor
  · intro l hl
    obtain ⟨p, _, rfl⟩ := List.mem_map.mp hl
    exact phaseEvents_pairwise _ _ _ _ _
  · rw [List.pairwise_map]
    refine (List.pairwise_lt_range _).imp ?_
    intro p q hpq x hx y hy
    left
    rw [phaseEvents_phase _ _ _ _ _ x hx, phaseEvents_phase _ _ _ _ _ y hy]
    exact hpq

/-! ## The claims -/

/-- C1: for every run with a finite `maxFrames ≥ 0` and no call to
`requestExit`, after `run()` returns the `frame()` counter equals
`maxFrames` exactly — no step is skipped and no extra step runs, even
when adaptive catch-up bursts execute additional steps inside one loop
iteration.  Quantified over arbitrary adaptive settings, catch-up
oracles and wall-clock readings; the fuel bound `maxFrames.toNat <
fuel` only has to dominate the number of outer iterations, which the
theorem shows is enough for the C++ `while (advance())` loop to have
returned. -/
theorem C1_frame_count_exact (c : Settings) (exitAt : Int → Bool)
    (extraOracle : Nat → Int) (nowOracle : Nat → ℚ) (now0 : ℚ) (fuel : Nat)
    (s : SimState) (hmf : 0 ≤ c.maxFrames) (hex : ∀ f, exitAt f = false)
    (hterm : s.terminate = false) (h0 : s.frame = 0)
    (hfuel : c.maxFrames.toNat < fuel) :
    (run c exitAt extraOracle nowOracle now0 fuel s).frame = c.maxFrames := by
  unfold run
  refine runLoop_frame_eq c exitAt extraOracle nowOracle hmf hex fuel 0 _ ?_ ?_ ?_
  · exact hterm
  · show s.frame ≤ c.maxFrames
    omega
  · show (c.maxFrames - s.frame).toNat < fuel
    omega

def cfgC1 : Settings :=
  { hz := 500, maxFrames := 3, adaptive := false, maxCatchUp := 4, threads := 1,
    mainHelps := true, chunkSize := 256, driftLogInterval := 0, spinMicros := 200,
    logPhases := false, logRangeTasks := false }

def stC1 : SimState :=
  { frame := 0, terminate := false, subSteps := 1, dt := 1 / 500, outerDt := 1 / 500,
    nextFrameTarget := 0, startReal := 0, lastDriftMs := 0 }

theorem C1_witness :
    (run cfgC1 (fun _ => false) (fun _ => 0) (fun _ => 0) 0 4 stC1).frame = 3 :=
  C1_frame_count_exact cfgC1 (fun _ => false) (fun _ => 0) (fun _ => 0) 0 4 stC1
    (by decide) (fun _ => rfl) rfl rfl (by decide)

/-- C2: for every parallel range task with `elementCount = N` and
effective chunk size `C`, on completion of the claiming protocol
(`remaining = 0`) the multiset of executed chunk indices is exactly
`[0, totalChunks)` with `totalChunks = ceil(N/C)` (each claimed once);
the interval of chunk `idx` is `[idx*C, min(idx*C + C, N))`; these
intervals cover `[0, N)` exactly and are pairwise disjoint; and in the
serial fallback the single invocation is `(0, elementCount)`. -/
theorem C2_chunk_coverage (N C : Nat) (s : DispatchState) (i idx j k cs : Nat)
    (ph : PhaseModel) (order2 : List Nat) (hC : 0 < C)
    (hreach : DReach (totalChunks N C) s) (hdone : s.remaining = 0)
    (h1 : chunkBegin idx C ≤ j) (h2 : j < chunkEnd idx C N)
    (h3 : chunkBegin k C ≤ j) (h4 : j < chunkEnd k C N) :
    s.done.Perm (List.range (totalChunks N C)) ∧
    (i < N ↔ ∃ t, t < totalChunks N C ∧ chunkBegin t C ≤ i ∧ i < chunkEnd t C N) ∧
    idx = k ∧
    phaseTaskIntervals 1 cs ph order2 = [(0, ph.elementCount)] := by
  refine ⟨dispatch_complete_perm hreach hdone, chunk_mem_iff C N i hC,
    chunk_disjoint C N idx k j hC h1 h2 h3 h4, ?_⟩
  simp [phaseTaskIntervals]

theorem C2_witness :
    (⟨3, 0, [], [0, 1, 2]⟩ : DispatchState).done.Perm (List.range (totalChunks 5 2)) ∧
    (3 < 5 ↔ ∃ t, t < totalChunks 5 2 ∧ chunkBegin t 2 ≤ 3 ∧ 3 < chunkEnd t 2 5) ∧
    1 = 1 ∧
    phaseTaskIntervals 1 256 ⟨0, 1, 0, 5, true⟩ [] = [(0, 5)] := by
  have hreach : DReach (totalChunks 5 2) ⟨3, 0, [], [0, 1, 2]⟩ := by
    have d1 : DReach 3 ⟨1, 3, [0], []⟩ :=
      DReach.step DReach.init (DStep.claim _ (by decide))
    have d2 : DReach 3 ⟨1, 2, [], [0]⟩ :=
      DReach.step d1 (DStep.finish _ 0 (by decide))
    have d3 : DReach 3 ⟨2, 2, [1], [0]⟩ :=
      DReach.step d2 (DStep.claim _ (by decide))
    have d4 : DReach 3 ⟨2, 1, [], [0, 1]⟩ :=
      DReach.step d3 (DStep.finish _ 1 (by decide))
    have d5 : DReach 3 ⟨3, 1, [2], [0, 1]⟩ :=
      DReach.step d4 (DStep.claim _ (by decide))
    exact DReach.step d5 (DStep.finish _ 2 (by decide))
  exact C2_chunk_coverage 5 2 ⟨3, 0, [], [0, 1, 2]⟩ 3 1 2 1 256
    ⟨0, 1, 0, 5, true⟩ [] (by decide) hreach rfl
    (by decide) (by decide) (by decide) (by decide)

/-- C3: within every step and for every enabled phase, every serial
subsystem invocation precedes every range-task chunk invocation of that
phase; chunks of range task `t` all precede chunks of range task `u`
for `t < u` (each task is drained before the next is dispatched, for
every chunk execution order); all chunk invocations precede every
reduction of that phase; serial subsystems and reductions each run in
insertion order; and events of earlier phases precede events of later
phases.  All of this is the `stepBefore` relation holding pairwise
along the invocation sequence of the step. -/
theorem C3_step_ordering (threadCount chunkSize : Nat) (phases : List PhaseModel)
    (orders : Nat → Nat → List Nat) :
    (stepEvents threadCount chunkSize phases orders).Pairwise stepBefore :=
  stepEvents_pairwise threadCount chunkSize phases orders

/-- C4: a range task that writes each element as a function of that
index of each element and its prior value produces the same final array under the
chunked parallel path of `doOneStep` — for every chunk execution order,
hence for every worker count — as under the single-invocation serial
fallback over `[0, elementCount)`; consequently any reduction folding
that array (such as `deterministicHash`) sees identical input. -/
theorem C4_parallel_eq_serial {α : Type} (threadCount cs : Nat) (ph : PhaseModel)
    (order order2 : List Nat) (f : Nat → α → α) (a : Nat → α) (i : Nat)
    (hperm : order.Perm
      (List.range (totalChunks ph.elementCount (effectiveChunkSize cs)))) :
    execIntervals f a (phaseTaskIntervals threadCount cs ph order) i
      = execIntervals f a (phaseTaskIntervals 1 cs ph order2) i := by
  have hC : 0 < effectiveChunkSize cs := effectiveChunkSize_pos cs
  have hserial : phaseTaskIntervals 1 cs ph order2 = [(0, ph.elementCount)] := by
    simp [phaseTaskIntervals]
  rw [hserial]
  unfold phaseTaskIntervals
  split
  · rw [execIntervals_perm_eq_serial f (effectiveChunkSize cs) ph.elementCount hC
      order hperm a i]
    rfl
  · rfl

theorem C4_witness :
    execIntervals (fun j v => v + j + 1) (fun _ => 0)
        (phaseTaskIntervals 2 2 ⟨0, 1, 0, 5, true⟩ [2, 0, 1]) 3
      = execIntervals (fun j v => v + j + 1) (fun _ => 0)
        (phaseTaskIntervals 1 2 ⟨0, 1, 0, 5, true⟩ [7]) 3 :=
  C4_parallel_eq_serial 2 2 ⟨0, 1, 0, 5, true⟩ [2, 0, 1] [7]
    (fun j v => v + j + 1) (fun _ => 0) 3 (by decide)

/-- C5 counterexample: with `elementCount = 0` the parallel-dispatch
condition at SimCore.hpp:230-232 is false, so `doOneStep` falls into
the serial branch (SimCore.hpp:262-267), which invokes every range
task once with `(0, elementCount) = (0, 0)` — the task IS invoked,
contradicting the claim that it is not invoked at all. -/
theorem C5_counterexample :
    phaseTaskIntervals 4 256 ⟨0, 1, 0, 0, true⟩ [] = [(0, 0)] ∧
    Event.chunkCall 0 0 0 0 ∈ phaseEvents 4 256 0 ⟨0, 1, 0, 0, true⟩ (fun _ => []) := by
  decide

/-- C5 (amended): for every phase whose `elementCount` is 0, the
chunked dispatcher is skipped (its publish/claim machinery never runs),
and each parallel range task is instead invoked exactly once with the
empty range `(0, 0)` by the serial fallback. -/
theorem C5_empty_single_empty_invocation (threadCount chunkSize : Nat)
    (ph : PhaseModel) (order : List Nat) (h : ph.elementCount = 0) :
    phaseTaskIntervals threadCount chunkSize ph order = [(0, 0)] := by
  unfold phaseTaskIntervals
  rw [if_neg, h]
  rintro ⟨_, _, hpos⟩
  omega

theorem C5_witness :
    phaseTaskIntervals 4 256 ⟨2, 1, 1, 0, true⟩ [5] = [(0, 0)] :=
  C5_empty_single_empty_invocation 4 256 ⟨2, 1, 1, 0, true⟩ [5] rfl

/-- A configuration with `chunkSize = 0` (all other fields default). -/
def cfgC6 : Settings :=
  { hz := 500, maxFrames := 2500, adaptive := false, maxCatchUp := 4, threads := 4,
    mainHelps := true, chunkSize := 0, driftLogInterval := 250, spinMicros := 200,
    logPhases := false, logRangeTasks := false }

/-- C6 counterexample: `chunkSize = 0` is neither rejected
(`applySettings` passes it through unchanged, SimCore.hpp:56-71) nor
treated as 1: the dispatch expression `settings_.chunkSize ?
settings_.chunkSize : 256` (SimCore.hpp:236) substitutes 256, so with
`elementCount = 2` the single invoked interval is `(0, 2)`, while an
effective chunk size of 1 would end the first chunk at 1. -/
theorem C6_counterexample :
    (applySettings cfgC6).chunkSize = 0 ∧
    effectiveChunkSize 0 = 256 ∧
    phaseTaskIntervals 2 0 ⟨0, 1, 0, 2, true⟩ [0] = [(0, 2)] ∧
    chunkEnd 0 (effectiveChunkSize 0) 2 ≠ chunkEnd 0 1 2 := by
  decide

/-- C6 (amended): `chunkSize = 0` is accepted unchanged by
`applySettings`, and every parallel range task dispatch behaves exactly
as if `chunkSize` were 256 (the default), not 1. -/
theorem C6_chunkSize_zero_as_default (st : Settings) (threadCount : Nat)
    (ph : PhaseModel) (order : List Nat) :
    (applySettings st).chunkSize = st.chunkSize ∧
    effectiveChunkSize 0 = 256 ∧
    phaseTaskIntervals threadCount 0 ph order
      = phaseTaskIntervals threadCount 256 ph order := by
  refine ⟨rfl, rfl, rfl⟩

/-- A default configuration and a state whose baseline `startReal` is 5. -/
def cfgC7 : Settings :=
  { hz := 500, maxFrames := 2500, adaptive := false, maxCatchUp := 4, threads := 4,
    mainHelps := true, chunkSize := 256, driftLogInterval := 250, spinMicros := 200,
    logPhases := false, logRangeTasks := false }

def stC7 : SimState :=
  { frame := 0, terminate := false, subSteps := 1, dt := 1 / 500, outerDt := 1 / 500,
    nextFrameTarget := 2, startReal := 5, lastDriftMs := 0 }

/-- C7 counterexample: `recalcTiming` executes `startReal_ =
Clock::now()` (SimCore.hpp:301), so a state whose `startReal` baseline
was 5 comes out with `startReal` equal to the current clock reading 7:
the deadline/baseline state is NOT left unchanged. -/
theorem C7_counterexample :
    (recalcTiming cfgC7 7 stC7).startReal = 7 ∧ stC7.startReal = 5 ∧ (7 : ℚ) ≠ 5 := by
  refine ⟨rfl, rfl, by norm_num⟩

/-- C7 (amended): `recalcTiming` recomputes only the derived timing
values (`subSteps`, `dt`, `outerDt`): it leaves the frame counter, the
terminate flag, the deadline `nextFrameTarget` and `lastDriftMs`
unchanged — but it resets the wall-clock baseline `startReal` to the
current clock reading (SimCore.hpp:301), so it is not pure with respect
to baseline state. -/
theorem C7_recalcTiming_fields (c : Settings) (now : ℚ) (s : SimState) :
    (recalcTiming c now s).frame = s.frame ∧
    (recalcTiming c now s).terminate = s.terminate ∧
    (recalcTiming c now s).nextFrameTarget = s.nextFrameTarget ∧
    (recalcTiming c now s).lastDriftMs = s.lastDriftMs ∧
    (recalcTiming c now s).startReal = now :=
  ⟨rfl, rfl, rfl, rfl, rfl⟩

/-- An adaptive configuration and a starting state for the catch-up
counterexample: a subsystem of the step at frame 0 calls
`requestExit()`. -/
def cfgC8 : Settings :=
  { hz := 1000, maxFrames := 10, adaptive := true, maxCatchUp := 4, threads := 2,
    mainHelps := true, chunkSize := 256, driftLogInterval := 0, spinMicros := 200,
    logPhases := false, logRangeTasks := false }

def stC8 : SimState :=
  { frame := 0, terminate := false, subSteps := 1, dt := 1 / 1000, outerDt := 1 / 1000,
    nextFrameTarget := 0, startReal := 0, lastDriftMs := 0 }

def exitAtZero : Int → Bool := fun f => f == 0

/-- C8 counterexample: the step at frame 0 sets `terminate_` (via
`requestExit` from a callback), so `terminate` is true at the step
boundary after the first step — yet the adaptive catch-up loop
(SimCore.hpp:207-210) checks only the frame budget, not `terminate_`,
and runs two further steps inside the same `advance` call: the frame
counter reaches 3, not 1. -/
theorem C8_counterexample :
    (doStep exitAtZero stC8).terminate = true ∧
    (doStep exitAtZero stC8).frame = 1 ∧
    ((advance cfgC8 exitAtZero (fun _ => 2) (fun _ => 0) 0 stC8).1).frame = 3 ∧
    ((advance cfgC8 exitAtZero (fun _ => 2) (fun _ => 0) 0 stC8).1).terminate = true := by
  refine ⟨rfl, rfl, ?_, ?_⟩ <;> decide

/-- C8 (amended): `terminate` is observed at the top of each outer loop
iteration: whenever `terminate` is true when `advance` begins, no step
executes, `advance` returns false, and the `run` loop returns the state
unchanged.  Catch-up burst steps inside one iteration do not re-check
`terminate`, so a `requestExit` issued during a step only takes effect
at the next outer iteration (after up to `maxCatchUp` extra steps). -/
theorem C8_terminate_top_of_iteration (c : Settings) (exitAt : Int → Bool)
    (extraOracle : Nat → Int) (nowOracle : Nat → ℚ) (k fuel : Nat) (s : SimState)
    (h : s.terminate = true) :
    advance c exitAt extraOracle nowOracle k s = (s, false) ∧
    runLoop c exitAt extraOracle nowOracle fuel k s = s := by
  have hadv : advance c exitAt extraOracle nowOracle k s = (s, false) := by
    unfold advance
    rw [h]
    simp
  refine ⟨hadv, ?_⟩
  cases fuel with
  | zero => rfl
  | succ m =>
      unfold runLoop
      rw [hadv]

def stC8t : SimState :=
  { frame := 5, terminate := true, subSteps := 1, dt := 1 / 1000, outerDt := 1 / 1000,
    nextFrameTarget := 0, startReal := 0, lastDriftMs := 0 }

theorem C8_witness :
    advance cfgC8 exitAtZero (fun _ => 2) (fun _ => 0) 0 stC8t = (stC8t, false) ∧
    runLoop cfgC8 exitAtZero (fun _ => 2) (fun _ => 0) 3 0 stC8t = stC8t :=
  C8_terminate_top_of_iteration cfgC8 exitAtZero (fun _ => 2) (fun _ => 0) 0 3 stC8t rfl

/-- C9 counterexample: with `totalChunks = 1` and `threads = 2`, a
worker claims chunk 0 and, while that chunk is still in flight
(`remaining = 1 > 0`), the wait loop of the driver (SimCore.hpp:248-253)
keeps executing `nextChunk_.fetch_add(1)`, receiving indices past
`totalChunks` and continuing: after three such spins `nextChunk = 4 >
totalChunks + threads = 3`, violating the claimed bound. -/
theorem C9_counterexample :
    DReach (totalChunks 1 1)
      { nextChunk := 4, remaining := 1, inFlight := [0], done := [] } ∧
    totalChunks 1 1 + 2 < 4 := by
  constructor
  · have d1 : DReach 1 ⟨1, 1, [0], []⟩ :=
      DReach.step DReach.init (DStep.claim _ (by decide))
    have d2 : DReach 1 ⟨2, 1, [0], []⟩ :=
      DReach.step d1 (DStep.overclaim _ (by decide) (by decide))
    have d3 : DReach 1 ⟨3, 1, [0], []⟩ :=
      DReach.step d2 (DStep.overclaim _ (by decide) (by decide))
    exact DReach.step d3 (DStep.overclaim _ (by decide) (by decide))
  · decide

/-- C9 (amended): while a range task is active, `remaining` stays in
`[0, totalChunks]` and is monotonically non-increasing across every
protocol action, and `nextChunk` is monotonically non-decreasing; the
claimed upper bound `nextChunk ≤ totalChunks + threads` does not hold
because the driver re-claims indefinitely while chunks are in flight
(see the counterexample). -/
theorem C9_dispatch_invariants (tc : Nat) (s t : DispatchState)
    (hreach : DReach tc s) (hstep : DStep tc s t) :
    s.remaining ≤ tc ∧ t.remaining ≤ s.remaining ∧ s.nextChunk ≤ t.nextChunk ∧
    t.remaining ≤ tc := by
  obtain ⟨hperm, hcount, hrem⟩ := dinv_reach hreach
  obtain ⟨hperm2, hcount2, hrem2⟩ := dinv_step (dinv_reach hreach) hstep
  have h1 : s.remaining ≤ tc := by omega
  have h4 : t.remaining ≤ tc := by omega
  refine ⟨h1, ?_, ?_, h4⟩
  · cases hstep <;> dsimp only <;> omega
  · cases hstep <;> dsimp only <;> omega

theorem C9_witness :
    (initDispatch 1).remaining ≤ 1 ∧
    ({ nextChunk := 1, remaining := 1, inFlight := [0], done := [] } :
        DispatchState).remaining ≤ (initDispatch 1).remaining ∧
    (initDispatch 1).nextChunk ≤
      ({ nextChunk := 1, remaining := 1, inFlight := [0], done := [] } :
        DispatchState).nextChunk ∧
    ({ nextChunk := 1, remaining := 1, inFlight := [0], done := [] } :
        DispatchState).remaining ≤ 1 :=
  C9_dispatch_invariants 1 (initDispatch 1) ⟨1, 1, [0], []⟩ DReach.init
    (DStep.claim _ (by decide))

/-- C10: `lastDriftMs_` is written only inside `logDrift`
(SimCore.hpp:289 is its only assignment; every other operation of the
embedding leaves the field unchanged), `logDrift` returns without
writing whenever `driftLogInterval ≤ 0` or the current frame is not a
multiple of `driftLogInterval`, and consequently a run configured with
`driftLogInterval = 0` that starts from the initial value
`lastDriftMs = 0.0` still reads 0.0 after `run()`. -/
theorem C10_lastDrift_zero (c c2 : Settings) (exitAt : Int → Bool)
    (extraOracle : Nat → Int) (nowOracle : Nat → ℚ) (now0 now2 : ℚ) (fuel : Nat)
    (s t : SimState) (h : c.driftLogInterval = 0) (h0 : s.lastDriftMs = 0)
    (hg : c2.driftLogInterval ≤ 0 ∨ t.frame % c2.driftLogInterval ≠ 0) :
    (run c exitAt extraOracle nowOracle now0 fuel s).lastDriftMs = 0 ∧
    logDrift c2 now2 t = t := by
  refine ⟨?_, logDrift_gate c2 now2 t hg⟩
  unfold run
  rw [runLoop_lastDrift c exitAt extraOracle nowOracle h]
  exact h0

def cfgC10 : Settings :=
  { hz := 1000, maxFrames := 2, adaptive := true, maxCatchUp := 4, threads := 2,
    mainHelps := true, chunkSize := 256, driftLogInterval := 0, spinMicros := 200,
    logPhases := false, logRangeTasks := false }

def stC10 : SimState :=
  { frame := 0, terminate := false, subSteps := 1, dt := 1 / 1000, outerDt := 1 / 1000,
    nextFrameTarget := 0, startReal := 0, lastDriftMs := 0 }

theorem C10_witness :
    (run cfgC10 (fun _ => false) (fun _ => 1) (fun _ => 0) 0 3 stC10).lastDriftMs = 0 ∧
    logDrift cfgC10 0 stC10 = stC10 :=
  C10_lastDrift_zero cfgC10 cfgC10 (fun _ => false) (fun _ => 1) (fun _ => 0) 0 0 3
    stC10 stC10 rfl rfl (Or.inl (by decide))

end SimCore
